import Mathlib

/-!
Shallow embedding of `dark-std`'s `SyncHashMap` (src/sync/map_hash.rs).

The Rust type is

  pub struct SyncMapImpl<K, V> {
      read: UnsafeCell<Map<K, V>>,   -- the shadow store, read without a lock
      dirty: Mutex<Map<K, V>>,       -- the authoritative store, lock-guarded
  }

We model each `HashMap` as an association list with (in reachable states)
no duplicate keys; lookup/insert/erase mirror `HashMap::get`,
`HashMap::insert` and `HashMap::remove`.  Every public operation is
embedded sequentially (each call runs to completion under the `dirty`
lock, exactly as the source serialises them).  Because the shadow value
is produced with `std::mem::transmute_copy` — a bitwise alias of the
authoritative value — the model stores the same `V` in both lists.

Destructor bookkeeping: the Rust code suppresses the shadow copy's
destructor with `std::mem::forget` on every removal path, while values
dropped by `HashMap` internals run their destructor.  Each embedded
operation therefore also returns
  * `destructed` — the values whose destructor the call itself runs, and
  * `forgotten`  — the shadow copies handed to `mem::forget`.
-/

namespace DarkStd

variable {K V : Type} [DecidableEq K]

/-- Embeds `HashMap::get` on an association list: the value of the first entry
whose key matches. -/
def lookupA (k : K) : List (K × V) → Option V
  | [] => none
  | (a, b) :: t => if a = k then some b else lookupA k t

/-- Embeds `HashMap::remove`'s effect on the entries: drop every entry with key
`k` (on duplicate-free lists this is removal of the unique entry). -/
def eraseA (k : K) : List (K × V) → List (K × V)
  | [] => []
  | (a, b) :: t => if a = k then eraseA k t else (a, b) :: eraseA k t

/-- Embeds `HashMap::insert`'s effect on the entries: replace any entry with key
`k` by `(k, v)`. -/
def insertA (k : K) (v : V) (l : List (K × V)) : List (K × V) :=
  eraseA k l ++ [(k, v)]

/-- In-place mutation of the value stored under `k` (what a caller does
through the `&mut V` of a `get_mut` guard). -/
def updateA (k : K) (f : V → V) : List (K × V) → List (K × V)
  | [] => []
  | (a, b) :: t => if a = k then (a, f b) :: t else (a, b) :: updateA k f t

/-- The keys of an association list. -/
def keysA (l : List (K × V)) : List K := l.map Prod.fst

/-- The state of `SyncMapImpl`: `read` is the shadow store (read with no
lock), `dirty` the authoritative store (behind the mutex). -/
structure SyncMapImpl (K V : Type) where
  read : List (K × V)
  dirty : List (K × V)
deriving DecidableEq

/-- What one call to a mutating operation produces: the returned value,
the successor state, the values whose destructor the call ran
(`destructed`) and the shadow aliases it passed to `std::mem::forget`
(`forgotten`). -/
structure OpOut (K V : Type) where
  ret : Option V
  state : SyncMapImpl K V
  destructed : List V
  forgotten : List V
deriving DecidableEq

namespace SyncMapImpl

/-- Embeds `SyncMapImpl::new`. -/
def new : SyncMapImpl K V := ⟨[], []⟩

/-- Embeds `SyncMapImpl::insert`: lock `dirty`; `dirty.insert(k, v)`; if no
prior entry existed, additionally store a bitwise alias of the freshly
inserted value into `read` (the `Option` returned by that `read.insert`
is discarded, so a pre-existing shadow entry — impossible in reachable
states — would be dropped); otherwise return the prior value and leave
`read` untouched. -/
def insert (s : SyncMapImpl K V) (k : K) (v : V) : OpOut K V :=
  match lookupA k s.dirty with
  | none =>
      { ret := none
        state := ⟨insertA k v s.read, insertA k v s.dirty⟩
        destructed := (lookupA k s.read).toList
        forgotten := [] }
  | some o =>
      { ret := some o
        state := ⟨s.read, insertA k v s.dirty⟩
        destructed := []
        forgotten := [] }

/-- Embeds `SyncMapImpl::remove`: lock `dirty`; remove from `dirty`; if an
entry was present, also remove the shadow entry and `mem::forget` it,
returning the authoritative value. -/
def remove (s : SyncMapImpl K V) (k : K) : OpOut K V :=
  match lookupA k s.dirty with
  | some v =>
      { ret := some v
        state := ⟨eraseA k s.read, eraseA k s.dirty⟩
        destructed := []
        forgotten := (lookupA k s.read).toList }
  | none =>
      { ret := none, state := s, destructed := [], forgotten := [] }

/-- Embeds `SyncMapImpl::get`: unlocked lookup in the shadow store. -/
def get (s : SyncMapImpl K V) (k : K) : Option V :=
  lookupA k s.read

/-- Embeds `SyncMapImpl::len`: the shadow store's size, read without a lock. -/
def len (s : SyncMapImpl K V) : Nat := s.read.length

/-- Embeds `SyncMapImpl::is_empty`: whether the shadow store is empty. -/
def is_empty (s : SyncMapImpl K V) : Bool := s.read.isEmpty

/-- Embeds `SyncMapImpl::clear`: lock; `dirty.clear()` (which runs the
destructor of every authoritative value); drain every shadow entry
through `mem::forget`. -/
def clear (s : SyncMapImpl K V) : OpOut K V :=
  { ret := none
    state := ⟨[], []⟩
    destructed := s.dirty.map Prod.snd
    forgotten := s.read.map Prod.snd }

/-- Embeds `SyncMapImpl::shrink_to_fit`: releases backing capacity only; the
logical contents of both stores are untouched. -/
def shrink_to_fit (s : SyncMapImpl K V) : SyncMapImpl K V := s

/-- Embeds `SyncMapImpl::get_mut`'s return value: `Some` exactly when the key
is in the authoritative store (the guard dereferences to that value). -/
def get_mut (s : SyncMapImpl K V) (k : K) : Option V :=
  lookupA k s.dirty

/-- A whole `get_mut` episode: acquire the lock, and if the key is
present let the caller mutate the authoritative value in place through
the guard (modelled by `f`); the shadow store is never touched. -/
def get_mut_apply (s : SyncMapImpl K V) (k : K) (f : V → V) :
    SyncMapImpl K V :=
  match lookupA k s.dirty with
  | some _ => ⟨s.read, updateA k f s.dirty⟩
  | none => s

/-- Embeds `SyncMapImpl::iter`: unlocked iteration over the shadow store. -/
def iter (s : SyncMapImpl K V) : List (K × V) := s.read

/-- Embeds `SyncMapImpl::from`: move the given map into `dirty`, then insert a
bitwise alias of every value into `read`, one key at a time. -/
def fromMap (m : List (K × V)) : SyncMapImpl K V :=
  ⟨m.foldl (fun r p => insertA p.1 p.2 r) [], m⟩

/-- Embeds `impl Drop for SyncMapImpl`: every shadow entry is drained through
`mem::forget`; these values run no destructor. -/
def dropForgotten (s : SyncMapImpl K V) : List V := s.read.map Prod.snd

/-- Engine teardown after the `Drop` impl ran: the `dirty` field is
dropped normally, running the destructor of each authoritative value. -/
def dropDestructed (s : SyncMapImpl K V) : List V := s.dirty.map Prod.snd

end SyncMapImpl

/-! ### Sequential traces of operations -/

/-- One sequentially executed call on the map: `ins`/`rem`/`clr` are
`insert`/`remove`/`clear`; `gmut k f` is a whole `get_mut` episode whose
guard the caller uses to rewrite the value with `f`; `fit` is
`shrink_to_fit`.  (`get`, `len`, `is_empty` and `iter` are read-only and
need no step.) -/
inductive Op (K V : Type) where
  | ins (k : K) (v : V)
  | rem (k : K)
  | clr
  | gmut (k : K) (f : V → V)
  | fit

/-- The state after one operation runs to completion. -/
def SyncMapImpl.step (s : SyncMapImpl K V) : Op K V → SyncMapImpl K V
  | .ins k v => (s.insert k v).state
  | .rem k => (s.remove k).state
  | .clr => s.clear.state
  | .gmut k f => s.get_mut_apply k f
  | .fit => s.shrink_to_fit

/-- The state after a sequence of operations, each run to completion. -/
def SyncMapImpl.run (s : SyncMapImpl K V) (ops : List (Op K V)) :
    SyncMapImpl K V :=
  ops.foldl SyncMapImpl.step s

/-- Repeated `insert`, one entry at a time, starting from `s`. -/
def SyncMapImpl.insertAll (s : SyncMapImpl K V) (l : List (K × V)) :
    SyncMapImpl K V :=
  l.foldl (fun s p => (s.insert p.1 p.2).state) s

/-- Spec-side account of one operation on the abstract map of
"freshly established" values: an insert binds its value only when the
key is not live (insert-of-new-key or reinsert-after-remove); a remove
kills the key; clear kills every key; `get_mut` episodes and
`shrink_to_fit` leave it unchanged. -/
def specStep (φ : K → Option V) : Op K V → (K → Option V)
  | .ins k v => fun q => if q = k then some ((φ k).getD v) else φ q
  | .rem k => fun q => if q = k then none else φ q
  | .clr => fun _ => none
  | .gmut _ _ => φ
  | .fit => φ

/-- The abstract map of freshly established values after a trace from
the empty map. -/
def freshVal (ops : List (Op K V)) : K → Option V :=
  ops.foldl specStep (fun _ => none)

/-- The reachable-state invariant of the engine: both stores are
duplicate-free and hold exactly the same keys. -/
def Inv (s : SyncMapImpl K V) : Prop :=
  (keysA s.read).Nodup ∧ (keysA s.dirty).Nodup ∧
    ∀ k, k ∈ keysA s.read ↔ k ∈ keysA s.dirty

instance (s : SyncMapImpl K V) [Fintype K] : Decidable (Inv s) := by
  unfold Inv
  infer_instance

/-- The simulation invariant tying a state to the abstract map `φ`:
both stores are duplicate-free, the shadow store realises `φ` exactly,
and the authoritative store is defined on exactly `φ`'s domain. -/
def Good (s : SyncMapImpl K V) (φ : K → Option V) : Prop :=
  (keysA s.read).Nodup ∧ (keysA s.dirty).Nodup ∧
    (∀ k, lookupA k s.read = φ k) ∧
    ∀ k, (lookupA k s.dirty).isSome = (φ k).isSome

/-- A concrete one-key state over a finite key type, used to evaluate
the general theorems on explicit inputs. -/
def sample1 : SyncMapImpl (Fin 2) Nat := ⟨[(0, 5)], [(0, 5)]⟩

/-- A concrete two-key entry list over a finite key type, used to
evaluate the bulk-load theorems on explicit inputs. -/
def sampleEntries : List (Fin 2 × Nat) := [(0, 5), (1, 6)]

/-! ### Association-list lemmas -/

theorem lookupA_isSome_iff {k : K} {l : List (K × V)} :
    (lookupA k l).isSome ↔ k ∈ keysA l := by
  induction l with
  | nil => simp [lookupA, keysA]
  | cons p t ih =>
      obtain ⟨a, b⟩ := p
      by_cases h : a = k <;> simp [lookupA, keysA, h, ih]
      · exact fun hm => (h (by simpa [keysA] using hm ▸ rfl)).elim

theorem lookupA_eq_none_iff {k : K} {l : List (K × V)} :
    lookupA k l = none ↔ k ∉ keysA l := by
  rw [← lookupA_isSome_iff]
  cases lookupA k l <;> simp

theorem lookupA_mem {k : K} {v : V} {l : List (K × V)}
    (h : lookupA k l = some v) : (k, v) ∈ l := by
  induction l with
  | nil => simp [lookupA] at h
  | cons p t ih =>
      obtain ⟨a, b⟩ := p
      by_cases ha : a = k
      · subst ha
        simp [lookupA] at h
        simp [h]
      · simp [lookupA, ha] at h
        exact List.mem_cons_of_mem _ (ih h)

theorem mem_lookupA {k : K} {v : V} {l : List (K × V)}
    (hnd : (keysA l).Nodup) (h : (k, v) ∈ l) : lookupA k l = some v := by
  induction l with
  | nil => simp at h
  | cons p t ih =>
      obtain ⟨a, b⟩ := p
      simp only [keysA, List.map_cons, List.nodup_cons] at hnd
      rcases List.mem_cons.mp h with h1 | h1
      · cases h1
        simp [lookupA]
      · have hak : a ≠ k := by
          intro hak
          subst hak
          exact hnd.1 (by simpa [keysA] using List.mem_map_of_mem Prod.fst h1)
        simp [lookupA, hak]
        exact ih hnd.2 h1

theorem lookupA_eraseA_self {k : K} {l : List (K × V)} :
    lookupA k (eraseA k l) = none := by
  induction l with
  | nil => simp [eraseA, lookupA]
  | cons p t ih =>
      obtain ⟨a, b⟩ := p
      by_cases h : a = k <;> simp [eraseA, lookupA, h, ih]

theorem lookupA_eraseA_ne {k q : K} {l : List (K × V)} (h : q ≠ k) :
    lookupA q (eraseA k l) = lookupA q l := by
  induction l with
  | nil => simp [eraseA]
  | cons p t ih =>
      obtain ⟨a, b⟩ := p
      by_cases ha : a = k
      · subst ha
        have : a ≠ q := fun hq => h (hq ▸ rfl)
        simp [eraseA, lookupA, this, ih]
      · by_cases hq : a = q <;> simp [eraseA, lookupA, ha, hq, h, ih]

theorem mem_keysA_eraseA {k q : K} {l : List (K × V)} :
    q ∈ keysA (eraseA k l) ↔ q ∈ keysA l ∧ q ≠ k := by
  constructor
  · intro h
    by_cases hq : q = k
    · subst hq
      have := lookupA_isSome_iff.mpr h
      rw [lookupA_eraseA_self (l := l)] at this
      simp at this
    · refine ⟨?_, hq⟩
      have := lookupA_isSome_iff.mpr h
      rw [lookupA_eraseA_ne hq] at this
      exact lookupA_isSome_iff.mp this
  · rintro ⟨hm, hq⟩
    have := lookupA_isSome_iff.mpr hm
    rw [← lookupA_eraseA_ne (l := l) hq] at this
    exact lookupA_isSome_iff.mp this

theorem nodup_keysA_eraseA {k : K} {l : List (K × V)}
    (h : (keysA l).Nodup) : (keysA (eraseA k l)).Nodup := by
  induction l with
  | nil => simp [eraseA, keysA]
  | cons p t ih =>
      obtain ⟨a, b⟩ := p
      simp only [keysA, List.map_cons, List.nodup_cons] at h
      by_cases ha : a = k
      · simp [eraseA, ha]
        exact ih h.2
      · simp only [eraseA, ha, if_false, keysA, List.map_cons, List.nodup_cons]
        refine ⟨fun hm => h.1 ?_, ih h.2⟩
        exact (mem_keysA_eraseA.mp hm).1

theorem eraseA_of_not_mem {k : K} {l : List (K × V)}
    (h : k ∉ keysA l) : eraseA k l = l := by
  induction l with
  | nil => rfl
  | cons p t ih =>
      obtain ⟨a, b⟩ := p
      simp only [keysA, List.map_cons, List.mem_cons] at h
      push_neg at h
      have : a ≠ k := fun hk => h.1 hk.symm
      simp [eraseA, this, ih (by simpa [keysA] using h.2)]

theorem length_eraseA_of_mem {k : K} {l : List (K × V)}
    (hnd : (keysA l).Nodup) (h : k ∈ keysA l) :
    (eraseA k l).length + 1 = l.length := by
  induction l with
  | nil => simp [keysA] at h
  | cons p t ih =>
      obtain ⟨a, b⟩ := p
      simp only [keysA, List.map_cons, List.nodup_cons] at hnd
      by_cases ha : a = k
      · subst ha
        rw [eraseA, if_pos rfl, eraseA_of_not_mem hnd.1]
        simp
      · simp only [keysA, List.map_cons, List.mem_cons] at h
        rcases h with h | h
        · exact (ha h.symm).elim
        · simp only [eraseA, ha, if_false, List.length_cons]
          rw [← ih hnd.2 (by simpa [keysA] using h)]

theorem lookupA_append_of_none {k : K} {l₁ l₂ : List (K × V)}
    (h : lookupA k l₁ = none) :
    lookupA k (l₁ ++ l₂) = lookupA k l₂ := by
  induction l₁ with
  | nil => simp
  | cons p t ih =>
      obtain ⟨a, b⟩ := p
      by_cases ha : a = k
      · simp [lookupA, ha] at h
      · simp only [lookupA, ha, if_false] at h
        simpa [lookupA, ha] using ih h

theorem lookupA_insertA_self {k : K} {v : V} {l : List (K × V)} :
    lookupA k (insertA k v l) = some v := by
  rw [insertA, lookupA_append_of_none lookupA_eraseA_self]
  simp [lookupA]

theorem lookupA_insertA_ne {k q : K} {v : V} {l : List (K × V)}
    (h : q ≠ k) : lookupA q (insertA k v l) = lookupA q l := by
  rw [insertA]
  induction l with
  | nil => simp [eraseA, lookupA, Ne.symm h]
  | cons p t ih =>
      obtain ⟨a, b⟩ := p
      by_cases ha : a = k
      · subst ha
        have : a ≠ q := fun hq => h (hq ▸ rfl)
        simp [eraseA, lookupA, this, ih]
      · by_cases hq : a = q <;> simp [eraseA, lookupA, ha, hq, h, ih]

theorem mem_keysA_insertA {k q : K} {v : V} {l : List (K × V)} :
    q ∈ keysA (insertA k v l) ↔ q = k ∨ q ∈ keysA l := by
  constructor
  · intro h
    by_cases hq : q = k
    · exact Or.inl hq
    · have := lookupA_isSome_iff.mpr h
      rw [lookupA_insertA_ne hq] at this
      exact Or.inr (lookupA_isSome_iff.mp this)
  · intro h
    rcases h with h | h
    · subst h
      exact lookupA_isSome_iff.mp (by simp [lookupA_insertA_self])
    · by_cases hq : q = k
      · subst hq
        exact lookupA_isSome_iff.mp (by simp [lookupA_insertA_self])
      · have := lookupA_isSome_iff.mpr h
        rw [← lookupA_insertA_ne (v := v) (l := l) hq] at this
        exact lookupA_isSome_iff.mp this

theorem nodup_keysA_insertA {k : K} {v : V} {l : List (K × V)}
    (h : (keysA l).Nodup) : (keysA (insertA k v l)).Nodup := by
  have : keysA (insertA k v l) = keysA (eraseA k l) ++ [k] := by
    simp [insertA, keysA]
  rw [this, List.nodup_append]
  refine ⟨nodup_keysA_eraseA h, List.nodup_singleton k, ?_⟩
  intro a ha hb
  simp at hb
  subst hb
  exact (mem_keysA_eraseA.mp ha).2 rfl

theorem length_insertA_of_not_mem {k : K} {v : V} {l : List (K × V)}
    (h : k ∉ keysA l) : (insertA k v l).length = l.length + 1 := by
  rw [insertA, eraseA_of_not_mem h]
  simp

theorem length_insertA_of_mem {k : K} {v : V} {l : List (K × V)}
    (hnd : (keysA l).Nodup) (h : k ∈ keysA l) :
    (insertA k v l).length = l.length := by
  rw [insertA, List.length_append, List.length_singleton,
    length_eraseA_of_mem hnd h]

theorem lookupA_updateA_self {k : K} {f : V → V} {l : List (K × V)} :
    lookupA k (updateA k f l) = (lookupA k l).map f := by
  induction l with
  | nil => simp [updateA, lookupA]
  | cons p t ih =>
      obtain ⟨a, b⟩ := p
      by_cases ha : a = k <;> simp [updateA, lookupA, ha, ih]

theorem lookupA_updateA_ne {k q : K} {f : V → V} {l : List (K × V)}
    (h : q ≠ k) : lookupA q (updateA k f l) = lookupA q l := by
  induction l with
  | nil => simp [updateA]
  | cons p t ih =>
      obtain ⟨a, b⟩ := p
      by_cases ha : a = k
      · subst ha
        have : a ≠ q := fun hq => h (hq ▸ rfl)
        simp [updateA, lookupA, this]
      · by_cases hq : a = q <;> simp [updateA, lookupA, ha, hq, h, ih]

theorem keysA_updateA {k : K} {f : V → V} {l : List (K × V)} :
    keysA (updateA k f l) = keysA l := by
  induction l with
  | nil => rfl
  | cons p t ih =>
      obtain ⟨a, b⟩ := p
      by_cases ha : a = k
      · simp [updateA, keysA, ha]
      · simp only [updateA, ha, if_false, keysA, List.map_cons]
        rw [show (updateA k f t).map Prod.fst = keysA (updateA k f t) from rfl, ih]
        rfl

theorem Good.inv {s : SyncMapImpl K V} {φ : K → Option V}
    (h : Good s φ) : Inv s := by
  obtain ⟨h1, h2, h3, h4⟩ := h
  refine ⟨h1, h2, fun k => ?_⟩
  rw [← lookupA_isSome_iff, ← lookupA_isSome_iff, h3 k, ← h4 k]

omit [DecidableEq K] in
theorem Inv.mem_dirty_of_read {s : SyncMapImpl K V} (h : Inv s) {k : K}
    (hk : k ∈ keysA s.read) : k ∈ keysA s.dirty := (h.2.2 k).mp hk

omit [DecidableEq K] in
theorem Inv.mem_read_of_dirty {s : SyncMapImpl K V} (h : Inv s) {k : K}
    (hk : k ∈ keysA s.dirty) : k ∈ keysA s.read := (h.2.2 k).mpr hk

theorem good_step {s : SyncMapImpl K V} {φ : K → Option V}
    (h : Good s φ) (o : Op K V) :
    Good (s.step o) (specStep φ o) := by
  obtain ⟨hr, hd, hv, hk⟩ := h
  cases o with
  | ins k v =>
      rcases hop : lookupA k s.dirty with _ | w
      · have hread : lookupA k s.read = none := by
          rw [hv k, ← Option.not_isSome_iff_eq_none, ← hk k, hop]
          simp
        have hφ : φ k = none := by rw [← hv k, hread]
        refine ⟨?_, ?_, ?_, ?_⟩
        · simpa [SyncMapImpl.step, SyncMapImpl.insert, hop] using
            nodup_keysA_insertA hr
        · simpa [SyncMapImpl.step, SyncMapImpl.insert, hop] using
            nodup_keysA_insertA hd
        · intro q
          by_cases hq : q = k
          · subst hq
            simp [SyncMapImpl.step, SyncMapImpl.insert, hop, specStep,
              lookupA_insertA_self, hφ]
          · simp [SyncMapImpl.step, SyncMapImpl.insert, hop, specStep, hq,
              lookupA_insertA_ne hq, hv q]
        · intro q
          by_cases hq : q = k
          · subst hq
            simp [SyncMapImpl.step, SyncMapImpl.insert, hop, specStep,
              lookupA_insertA_self]
          · simp [SyncMapImpl.step, SyncMapImpl.insert, hop, specStep, hq,
              lookupA_insertA_ne hq, hk q]
      · have hφ : (φ k).isSome := by rw [← hk k, hop]; rfl
        obtain ⟨w0, hw0⟩ := Option.isSome_iff_exists.mp hφ
        refine ⟨?_, ?_, ?_, ?_⟩
        · simpa [SyncMapImpl.step, SyncMapImpl.insert, hop] using hr
        · simpa [SyncMapImpl.step, SyncMapImpl.insert, hop] using
            nodup_keysA_insertA hd
        · intro q
          by_cases hq : q = k
          · subst hq
            simp [SyncMapImpl.step, SyncMapImpl.insert, hop, specStep, hw0,
              hv q]
          · simp [SyncMapImpl.step, SyncMapImpl.insert, hop, specStep, hq,
              hv q]
        · intro q
          by_cases hq : q = k
          · subst hq
            simp [SyncMapImpl.step, SyncMapImpl.insert, hop, specStep, hw0,
              lookupA_insertA_self]
          · simp [SyncMapImpl.step, SyncMapImpl.insert, hop, specStep, hq,
              lookupA_insertA_ne hq, hk q]
  | rem k =>
      rcases hop : lookupA k s.dirty with _ | w
      · have hread : lookupA k s.read = none := by
          rw [hv k, ← Option.not_isSome_iff_eq_none, ← hk k, hop]
          simp
        have hφ : φ k = none := by rw [← hv k, hread]
        refine ⟨?_, ?_, ?_, ?_⟩
        · simpa [SyncMapImpl.step, SyncMapImpl.remove, hop] using hr
        · simpa [SyncMapImpl.step, SyncMapImpl.remove, hop] using hd
        · intro q
          by_cases hq : q = k
          · subst hq
            simp [SyncMapImpl.step, SyncMapImpl.remove, hop, specStep, hφ,
              hv q]
          · simp [SyncMapImpl.step, SyncMapImpl.remove, hop, specStep, hq,
              hv q]
        · intro q
          by_cases hq : q = k
          · subst hq
            simp [SyncMapImpl.step, SyncMapImpl.remove, hop, specStep, hop]
          · simp [SyncMapImpl.step, SyncMapImpl.remove, hop, specStep, hq,
              hk q]
      · refine ⟨?_, ?_, ?_, ?_⟩
        · simpa [SyncMapImpl.step, SyncMapImpl.remove, hop] using
            nodup_keysA_eraseA hr
        · simpa [SyncMapImpl.step, SyncMapImpl.remove, hop] using
            nodup_keysA_eraseA hd
        · intro q
          by_cases hq : q = k
          · subst hq
            simp [SyncMapImpl.step, SyncMapImpl.remove, hop, specStep,
              lookupA_eraseA_self]
          · simp [SyncMapImpl.step, SyncMapImpl.remove, hop, specStep, hq,
              lookupA_eraseA_ne hq, hv q]
        · intro q
          by_cases hq : q = k
          · subst hq
            simp [SyncMapImpl.step, SyncMapImpl.remove, hop, specStep,
              lookupA_eraseA_self]
          · simp [SyncMapImpl.step, SyncMapImpl.remove, hop, specStep, hq,
              lookupA_eraseA_ne hq, hk q]
  | clr =>
      refine ⟨?_, ?_, ?_, ?_⟩ <;>
        simp [SyncMapImpl.step, SyncMapImpl.clear, specStep, keysA, lookupA]
  | gmut k f =>
      rcases hop : lookupA k s.dirty with _ | w
      · refine ⟨?_, ?_, ?_, ?_⟩ <;>
          simp [SyncMapImpl.step, SyncMapImpl.get_mut_apply, hop, specStep,
            hr, hd, hv, hk]
      · refine ⟨?_, ?_, ?_, ?_⟩
        · simpa [SyncMapImpl.step, SyncMapImpl.get_mut_apply, hop] using hr
        · simpa [SyncMapImpl.step, SyncMapImpl.get_mut_apply, hop,
            keysA_updateA] using hd
        · intro q
          simp [SyncMapImpl.step, SyncMapImpl.get_mut_apply, hop, specStep,
            hv q]
        · intro q
          by_cases hq : q = k
          · subst hq
            simp [SyncMapImpl.step, SyncMapImpl.get_mut_apply, hop, specStep,
              lookupA_updateA_self, ← hk q, hop]
          · simp [SyncMapImpl.step, SyncMapImpl.get_mut_apply, hop, specStep,
              lookupA_updateA_ne hq, hk q]
  | fit =>
      exact ⟨hr, hd, hv, hk⟩

theorem good_run {s : SyncMapImpl K V} {φ : K → Option V}
    (h : Good s φ) (ops : List (Op K V)) :
    Good (s.run ops) (ops.foldl specStep φ) := by
  induction ops generalizing s φ with
  | nil => exact h
  | cons o t ih =>
      exact ih (good_step h o)

theorem good_new : Good (SyncMapImpl.new : SyncMapImpl K V) (fun _ => none) := by
  refine ⟨?_, ?_, ?_, ?_⟩ <;> simp [SyncMapImpl.new, keysA, lookupA]

theorem Inv.dirty_none {s : SyncMapImpl K V} (h : Inv s) {k : K}
    (hget : s.get k = none) : lookupA k s.dirty = none := by
  rw [lookupA_eq_none_iff]
  intro hm
  have hr := h.mem_read_of_dirty hm
  rw [show s.get k = lookupA k s.read from rfl, lookupA_eq_none_iff] at hget
  exact hget hr

theorem Inv.read_none {s : SyncMapImpl K V} (h : Inv s) {k : K}
    (hd : lookupA k s.dirty = none) : lookupA k s.read = none := by
  rw [lookupA_eq_none_iff]
  intro hm
  exact (lookupA_eq_none_iff.mp hd) (h.mem_dirty_of_read hm)

theorem Inv.dirty_isSome {s : SyncMapImpl K V} (h : Inv s) {k : K} {v : V}
    (hget : s.get k = some v) : ∃ w, lookupA k s.dirty = some w := by
  have hmem : k ∈ keysA s.read := by
    rw [← lookupA_isSome_iff, show lookupA k s.read = s.get k from rfl, hget]
    rfl
  exact Option.isSome_iff_exists.mp
    (lookupA_isSome_iff.mpr (h.mem_dirty_of_read hmem))

omit [DecidableEq K] in
theorem Inv.length_eq {s : SyncMapImpl K V} (h : Inv s) :
    s.read.length = s.dirty.length := by
  have hp : (keysA s.read).Perm (keysA s.dirty) :=
    (List.perm_ext_iff_of_nodup h.1 h.2.1).mpr h.2.2
  simpa [keysA] using hp.length_eq

/-! ### `from` and its relation to repeated `insert` -/

theorem foldl_insertA_of_disjoint {m r : List (K × V)}
    (hm : (keysA m).Nodup) (hdisj : ∀ k ∈ keysA m, k ∉ keysA r) :
    m.foldl (fun acc p => insertA p.1 p.2 acc) r = r ++ m := by
  induction m generalizing r with
  | nil => simp
  | cons p t ih =>
      obtain ⟨a, b⟩ := p
      simp only [keysA, List.map_cons, List.nodup_cons] at hm
      have ha : a ∉ keysA r := hdisj a (by simp [keysA])
      have step1 : insertA a b r = r ++ [(a, b)] := by
        rw [insertA, eraseA_of_not_mem ha]
      rw [List.foldl_cons, step1, ih hm.2 ?_]
      · simp
      · intro k hk
        have hk1 : k ∈ keysA ((a, b) :: t) := by
          simp [keysA]
          exact Or.inr (by simpa [keysA] using hk)
        have hk2 : k ∉ keysA r := hdisj k hk1
        have hka : k ≠ a := by
          intro hka
          subst hka
          exact hm.1 (by simpa [keysA] using hk)
        simp only [keysA, List.map_append, List.map_cons, List.map_nil,
          List.mem_append, List.mem_cons, List.not_mem_nil, or_false]
        push_neg
        exact ⟨by simpa [keysA] using hk2, hka⟩

theorem fromMap_eq {m : List (K × V)} (hm : (keysA m).Nodup) :
    (SyncMapImpl.fromMap m : SyncMapImpl K V) = ⟨m, m⟩ := by
  unfold SyncMapImpl.fromMap
  have := foldl_insertA_of_disjoint (r := []) hm (by simp [keysA])
  simp only [List.nil_append] at this
  rw [this]

theorem good_fromMap {m : List (K × V)} (hm : (keysA m).Nodup) :
    Good (SyncMapImpl.fromMap m : SyncMapImpl K V) (fun k => lookupA k m) := by
  rw [fromMap_eq hm]
  exact ⟨hm, hm, fun _ => rfl, fun _ => rfl⟩

theorem insertAll_of_disjoint {r l : List (K × V)}
    (hl : (keysA l).Nodup) (hdisj : ∀ k ∈ keysA l, k ∉ keysA r) :
    SyncMapImpl.insertAll (⟨r, r⟩ : SyncMapImpl K V) l = ⟨r ++ l, r ++ l⟩ := by
  induction l generalizing r with
  | nil => simp [SyncMapImpl.insertAll]
  | cons p t ih =>
      obtain ⟨a, b⟩ := p
      simp only [keysA, List.map_cons, List.nodup_cons] at hl
      have ha : a ∉ keysA r := hdisj a (by simp [keysA])
      have hnone : lookupA a r = none := lookupA_eq_none_iff.mpr ha
      have hstep : ((⟨r, r⟩ : SyncMapImpl K V).insert a b).state =
          ⟨r ++ [(a, b)], r ++ [(a, b)]⟩ := by
        simp [SyncMapImpl.insert, hnone, insertA, eraseA_of_not_mem ha]
      rw [SyncMapImpl.insertAll, List.foldl_cons, hstep]
      have := ih (r := r ++ [(a, b)]) hl.2 ?_
      · rw [SyncMapImpl.insertAll] at this
        rw [this]
        simp
      · intro k hk
        have hk2 : k ∉ keysA r := hdisj k (by
          simp [keysA]
          exact Or.inr (by simpa [keysA] using hk))
        have hka : k ≠ a := by
          intro hka
          subst hka
          exact hl.1 (by simpa [keysA] using hk)
        simp only [keysA, List.map_append, List.map_cons, List.map_nil,
          List.mem_append, List.mem_cons, List.not_mem_nil, or_false]
        push_neg
        exact ⟨by simpa [keysA] using hk2, hka⟩

/-! ### The claims -/

/-- C1: if key `k` is present with value `v1` (`get k = some v1`), then
after `insert k v2` the unlocked `get` still returns `v1` — and not
`v2` whenever the two differ — because an overwrite touches only the
authoritative store; only after `remove k` followed by `insert k v3`
does `get` return the newest value `v3`. -/
theorem insert_existing_then_get (s : SyncMapImpl K V) (k : K) (v1 v2 v3 : V)
    (hInv : Inv s) (h : s.get k = some v1) :
    (s.insert k v2).state.get k = some v1 ∧
    (v1 ≠ v2 → (s.insert k v2).state.get k ≠ some v2) ∧
    (((s.insert k v2).state.remove k).state.insert k v3).state.get k =
      some v3 := by
  obtain ⟨w, hw⟩ := hInv.dirty_isSome h
  have h1 : (s.insert k v2).state = ⟨s.read, insertA k v2 s.dirty⟩ := by
    simp [SyncMapImpl.insert, hw]
  have hget1 : (s.insert k v2).state.get k = some v1 := by
    rw [h1]
    exact h
  refine ⟨hget1, ?_, ?_⟩
  · intro hne hcon
    rw [hget1] at hcon
    exact hne (Option.some.inj hcon)
  · have h2 : lookupA k (insertA k v2 s.dirty) = some v2 := lookupA_insertA_self
    have hrm : ((s.insert k v2).state.remove k).state =
        ⟨eraseA k s.read, eraseA k (insertA k v2 s.dirty)⟩ := by
      rw [h1]
      simp [SyncMapImpl.remove, h2]
    rw [hrm]
    have h3 : lookupA k (eraseA k (insertA k v2 s.dirty)) = none :=
      lookupA_eraseA_self
    simp [SyncMapImpl.insert, h3, SyncMapImpl.get, lookupA_insertA_self]

/-- Witness for C1: overwriting key `0` (value `5`) with `7` leaves the
unlocked `get` at `5`; after remove and reinsert with `9`, `get` is `9`. -/
theorem insert_existing_then_get_witness :
    (sample1.insert 0 7).state.get 0 = some 5 ∧
    ((5 : Nat) ≠ 7 → (sample1.insert 0 7).state.get 0 ≠ some 7) ∧
    (((sample1.insert 0 7).state.remove 0).state.insert 0 9).state.get 0 =
      some 9 :=
  insert_existing_then_get sample1 0 5 7 9 (by decide) (by decide)

/-- C3: inserting a key that is not present returns `none`, and
immediately afterwards the unlocked `get` returns `v`, with the shadow
store's entry for `k` identical to the authoritative store's entry. -/
theorem insert_new_key (s : SyncMapImpl K V) (k : K) (v : V)
    (hInv : Inv s) (h : s.get k = none) :
    (s.insert k v).ret = none ∧
    (s.insert k v).state.get k = some v ∧
    lookupA k (s.insert k v).state.read =
      lookupA k (s.insert k v).state.dirty := by
  have hd : lookupA k s.dirty = none := hInv.dirty_none h
  refine ⟨?_, ?_, ?_⟩ <;>
    simp [SyncMapImpl.insert, hd, SyncMapImpl.get, lookupA_insertA_self]

/-- Witness for C3: inserting fresh key `1` into a one-key map. -/
theorem insert_new_key_witness :
    (sample1.insert 1 7).ret = none ∧
    (sample1.insert 1 7).state.get 1 = some 7 ∧
    lookupA 1 (sample1.insert 1 7).state.read =
      lookupA 1 (sample1.insert 1 7).state.dirty :=
  insert_new_key sample1 1 7 (by decide) (by decide)

/-- C4: removing a present key returns the authoritative stored value
(`remove`'s result is exactly the `dirty` entry), afterwards `get`
returns `none`, and `len` drops by exactly one. -/
theorem remove_present (s : SyncMapImpl K V) (k : K) (v : V)
    (hInv : Inv s) (h : s.get k = some v) :
    (s.remove k).ret = lookupA k s.dirty ∧
    ((s.remove k).ret).isSome = true ∧
    (s.remove k).state.get k = none ∧
    (s.remove k).state.len + 1 = s.len := by
  obtain ⟨w, hw⟩ := hInv.dirty_isSome h
  have hmem : k ∈ keysA s.read := by
    rw [← lookupA_isSome_iff, show lookupA k s.read = s.get k from rfl, h]
    rfl
  refine ⟨?_, ?_, ?_, ?_⟩ <;>
    simp [SyncMapImpl.remove, hw, SyncMapImpl.get, SyncMapImpl.len,
      lookupA_eraseA_self, length_eraseA_of_mem hInv.1 hmem]

/-- Witness for C4: removing key `0` from a one-key map. -/
theorem remove_present_witness :
    (sample1.remove 0).ret = lookupA 0 sample1.dirty ∧
    ((sample1.remove 0).ret).isSome = true ∧
    (sample1.remove 0).state.get 0 = none ∧
    (sample1.remove 0).state.len + 1 = sample1.len :=
  remove_present sample1 0 5 (by decide) (by decide)

/-- C6: removing an absent key returns `none` and leaves the whole
state — both stores — unchanged; absence is an empty result, never an
error. -/
theorem remove_absent (s : SyncMapImpl K V) (k : K)
    (hInv : Inv s) (h : s.get k = none) :
    (s.remove k).ret = none ∧ (s.remove k).state = s := by
  have hd : lookupA k s.dirty = none := hInv.dirty_none h
  refine ⟨?_, ?_⟩ <;> simp [SyncMapImpl.remove, hd]

/-- Witness for C6: removing the absent key `1` from a one-key map. -/
theorem remove_absent_witness :
    (sample1.remove 1).ret = none ∧ (sample1.remove 1).state = sample1 :=
  remove_absent sample1 1 (by decide) (by decide)

/-- C2: single release of owned resources.  `remove` runs no destructor
itself and hands the shadow copy to `mem::forget` (so the caller's drop
of the returned value is that value's only destructor run); `clear`
destructs exactly the authoritative values — one run per contained
entry, `len` many in total — and forgets every shadow copy; engine
teardown (`Drop` then field drop) does the same; and `insert` destructs
nothing on any reachable state.  On every codepath the values passed to
`mem::forget` are exactly the shadow store's copies, so a shadow copy's
destructor never runs. -/
theorem single_release (s : SyncMapImpl K V) (hInv : Inv s) :
    (∀ k, (s.remove k).destructed = [] ∧
      (s.remove k).forgotten = (s.get k).toList) ∧
    (s.clear.destructed = s.dirty.map Prod.snd ∧
      s.clear.forgotten = s.read.map Prod.snd ∧
      s.clear.destructed.length = s.len) ∧
    (s.dropDestructed = s.dirty.map Prod.snd ∧
      s.dropForgotten = s.read.map Prod.snd ∧
      s.dropDestructed.length = s.len) ∧
    (∀ k v, (s.insert k v).destructed = []) := by
  have hlen : s.dirty.length = s.len := hInv.length_eq.symm
  refine ⟨fun k => ?_, ⟨rfl, rfl, ?_⟩, ⟨rfl, rfl, ?_⟩, fun k v => ?_⟩
  · rcases hop : lookupA k s.dirty with _ | w
    · have hr : lookupA k s.read = none := hInv.read_none hop
      refine ⟨?_, ?_⟩ <;>
        simp [SyncMapImpl.remove, hop, SyncMapImpl.get, hr]
    · refine ⟨?_, ?_⟩ <;> simp [SyncMapImpl.remove, hop, SyncMapImpl.get]
  · simpa [SyncMapImpl.clear] using hlen
  · simpa [SyncMapImpl.dropDestructed] using hlen
  · rcases hop : lookupA k s.dirty with _ | w
    · have hr : lookupA k s.read = none := hInv.read_none hop
      simp [SyncMapImpl.insert, hop, hr]
    · simp [SyncMapImpl.insert, hop]

/-- Witness for C2 on a concrete one-key state. -/
theorem single_release_witness :
    (∀ k, (sample1.remove k).destructed = [] ∧
      (sample1.remove k).forgotten = (sample1.get k).toList) ∧
    (sample1.clear.destructed = sample1.dirty.map Prod.snd ∧
      sample1.clear.forgotten = sample1.read.map Prod.snd ∧
      sample1.clear.destructed.length = sample1.len) ∧
    (sample1.dropDestructed = sample1.dirty.map Prod.snd ∧
      sample1.dropForgotten = sample1.read.map Prod.snd ∧
      sample1.dropDestructed.length = sample1.len) ∧
    (∀ k v, (sample1.insert k v).destructed = []) :=
  single_release sample1 (by decide)

/-- C5: a `get_mut` episode mutating the value under `k` through the
guard changes only the authoritative store — the shadow store is
untouched, so `get k` still answers from the shadow — and no other
key's entry in either store changes; if `k` is absent, `get_mut`
returns `none` and the state is unchanged (the lock is simply
released). -/
theorem get_mut_frame (s : SyncMapImpl K V) (k : K) (f : V → V) :
    (s.get_mut_apply k f).read = s.read ∧
    (s.get_mut_apply k f).get k = s.get k ∧
    (∀ q, q ≠ k →
      lookupA q (s.get_mut_apply k f).dirty = lookupA q s.dirty) ∧
    (lookupA k s.dirty = none →
      s.get_mut k = none ∧ s.get_mut_apply k f = s) ∧
    (∀ w, lookupA k s.dirty = some w →
      lookupA k (s.get_mut_apply k f).dirty = some (f w)) := by
  rcases hop : lookupA k s.dirty with _ | w
  · refine ⟨?_, ?_, ?_, ?_, ?_⟩ <;>
      simp [SyncMapImpl.get_mut_apply, hop, SyncMapImpl.get_mut]
  · refine ⟨?_, ?_, fun q hq => ?_, ?_, fun w0 hw0 => ?_⟩
    · simp [SyncMapImpl.get_mut_apply, hop]
    · simp [SyncMapImpl.get_mut_apply, hop, SyncMapImpl.get]
    · simp [SyncMapImpl.get_mut_apply, hop, lookupA_updateA_ne hq]
    · simp [hop]
    · have hww : w0 = w := (Option.some.inj hw0).symm
      subst hww
      simp [SyncMapImpl.get_mut_apply, hop, lookupA_updateA_self]

/-- C7: `from` bulk-loads the mapping into the authoritative store and
then creates a shadow alias for every key; the result is the very state
obtained by inserting every entry of `m` into a fresh map as a new key,
and both stores hold exactly `m`'s entries (so `get`, `len` and
iteration behave as after that insert sequence). -/
theorem from_eq_insert_sequence (m : List (K × V))
    (hm : (keysA m).Nodup) :
    (SyncMapImpl.fromMap m : SyncMapImpl K V) =
      SyncMapImpl.new.insertAll m ∧
    (SyncMapImpl.fromMap m : SyncMapImpl K V).read = m ∧
    (SyncMapImpl.fromMap m : SyncMapImpl K V).dirty = m := by
  have h1 := fromMap_eq hm
  have h2 := insertAll_of_disjoint (r := []) hm (by simp [keysA])
  refine ⟨?_, by rw [h1], by rw [h1]⟩
  rw [h1]
  show _ = SyncMapImpl.insertAll ⟨[], []⟩ m
  rw [h2]
  simp

/-- Witness for C7 on a concrete two-entry list. -/
theorem from_eq_insert_sequence_witness :
    (SyncMapImpl.fromMap sampleEntries : SyncMapImpl (Fin 2) Nat) =
      SyncMapImpl.new.insertAll sampleEntries ∧
    (SyncMapImpl.fromMap sampleEntries : SyncMapImpl (Fin 2) Nat).read =
      sampleEntries ∧
    (SyncMapImpl.fromMap sampleEntries : SyncMapImpl (Fin 2) Nat).dirty =
      sampleEntries :=
  from_eq_insert_sequence sampleEntries (by decide)

/-- C8: after `clear` both stores are empty — `len` is `0`, `is_empty`
is `true`, `get` answers `none` for every key — the authoritative
values were destructed by `dirty.clear()` and every drained shadow
entry went to `mem::forget` (destructor suppressed). -/
theorem clear_empties (s : SyncMapImpl K V) :
    s.clear.state.read = [] ∧ s.clear.state.dirty = [] ∧
    s.clear.state.len = 0 ∧ s.clear.state.is_empty = true ∧
    (∀ k, s.clear.state.get k = none) ∧
    s.clear.forgotten = s.read.map Prod.snd ∧
    s.clear.destructed = s.dirty.map Prod.snd :=
  ⟨rfl, rfl, rfl, rfl, fun _ => rfl, rfl, rfl⟩

/-- C9: with no concurrent mutation, `iter` yields exactly one
(key, value) pair per live key — keys are pairwise distinct — and the
value of each pair is the one established by the most recent
insert-of-new-key or reinsert-after-remove for that key (`freshVal`),
not any later overwrite. -/
theorem iter_fresh_values (ops : List (Op K V)) :
    (keysA (SyncMapImpl.new.run ops).iter).Nodup ∧
    ∀ k v, ((k, v) ∈ (SyncMapImpl.new.run ops).iter ↔
      freshVal ops k = some v) := by
  obtain ⟨hr, hd, hv, hk⟩ := good_run good_new ops
  refine ⟨hr, fun k v => ⟨fun hm => ?_, fun hf => ?_⟩⟩
  · rw [show freshVal ops k =
      List.foldl specStep (fun _ => none) ops k from rfl, ← hv k]
    exact mem_lookupA hr hm
  · apply lookupA_mem (l := (SyncMapImpl.new.run ops).iter)
    show lookupA k (SyncMapImpl.new.run ops).read = some v
    rw [hv k]
    exact hf

/-- C10: after any sequentially executed run of `insert`, `remove`,
`clear`, `get_mut` and `shrink_to_fit` starting from `from m` (with
`m = []` this is `new`), the shadow and authoritative stores contain
exactly the same keys, and `len` — read from the shadow store — equals
the authoritative store's cardinality. -/
theorem stores_agree_after_run (m : List (K × V)) (ops : List (Op K V))
    (hm : (keysA m).Nodup) :
    (∀ k, k ∈ keysA ((SyncMapImpl.fromMap m).run ops).read ↔
      k ∈ keysA ((SyncMapImpl.fromMap m).run ops).dirty) ∧
    ((SyncMapImpl.fromMap m).run ops).len =
      ((SyncMapImpl.fromMap m).run ops).dirty.length := by
  have hInv : Inv ((SyncMapImpl.fromMap m).run ops) :=
    (good_run (good_fromMap hm) ops).inv
  exact ⟨hInv.2.2, hInv.length_eq⟩

/-- Witness for C10: a concrete two-entry load followed by an
overwrite, a removal, a guard mutation and a compaction. -/
theorem stores_agree_after_run_witness :
    (∀ k, k ∈ keysA ((SyncMapImpl.fromMap sampleEntries).run
        [Op.ins 0 7, Op.rem 1, Op.gmut 0 Nat.succ, Op.fit]).read ↔
      k ∈ keysA ((SyncMapImpl.fromMap sampleEntries).run
        [Op.ins 0 7, Op.rem 1, Op.gmut 0 Nat.succ, Op.fit]).dirty) ∧
    ((SyncMapImpl.fromMap sampleEntries).run
        [Op.ins 0 7, Op.rem 1, Op.gmut 0 Nat.succ, Op.fit]).len =
      ((SyncMapImpl.fromMap sampleEntries).run
        [Op.ins 0 7, Op.rem 1, Op.gmut 0 Nat.succ, Op.fit]).dirty.length :=
  stores_agree_after_run sampleEntries
    [Op.ins 0 7, Op.rem 1, Op.gmut 0 Nat.succ, Op.fit] (by decide)

end DarkStd
